import Mathlib

/-!
# N-Queens: verification of the board and search engine

Shallow embedding of the N-Queens repository: the `Board` state
(occupancy grid, `queens_left` counter), the legality and evaluation
operations from `alphabeta/board.py` and `minimax/board.py`, and the two
search engines (`AlphaBetaAI.alpha_beta_search` with alpha-beta pruning,
`MinimaxAI.minimax` without).  Scores are modelled as `WithBot (WithTop Int)`
mirroring the Python floats: all heuristic values are integers, and the
sentinels `float('-inf')`/`float('inf')` become the bottom and top elements.
-/

/-- Scores manipulated by the search: integers extended with the two
infinite sentinels used by the Python code. -/
abbrev Score : Type := WithBot (WithTop Int)

/-- Embed an integer evaluation result into `Score`. -/
def Score.int (v : Int) : Score := ((v : WithTop Int) : WithBot (WithTop Int))

/-- The N-Queens board: dimension, occupancy grid and the
`queens_left` counter (`self.size`, `self.board`, `self.queens_left`). -/
structure Board where
  size : Nat
  grid : Nat → Nat → Bool
  queens_left : Int

/-- Point update of an occupancy grid (`self.board[row, col] = v`). -/
def setCell (g : Nat → Nat → Bool) (r c : Nat) (v : Bool) : Nat → Nat → Bool :=
  fun i j => if i = r ∧ j = c then v else g i j

/-- `Board.__init__`: zeroed grid, `queens_left = size`. -/
def Board.init (n : Nat) : Board :=
  { size := n, grid := fun _ _ => false, queens_left := (n : Int) }

/-- `Board.reset(size=None)`: re-zero the grid, optionally with a new size. -/
def Board.reset (b : Board) (newSize : Option Nat) : Board :=
  Board.init (newSize.getD b.size)

/-- `Board.is_safe(row, col)`: occupied-cell check, then the row/column
scan, then the two-diagonal scan, exactly as in `board.py` (identical in
the alphabeta and minimax variants). -/
def Board.is_safe (b : Board) (row col : Nat) : Bool :=
  if b.grid row col then false
  else if (List.range b.size).any (fun i => b.grid row i || b.grid i col) then false
  else if (List.range b.size).any (fun i => (List.range b.size).any (fun j =>
      if (i : Int) + j = (row : Int) + col ∨ (i : Int) - j = (row : Int) - col
      then b.grid i j else false)) then false
  else true

/-- `Board.place_queen(row, col)`: place when safe (returning `True`),
otherwise leave the board untouched and return `False`. -/
def Board.place_queen (b : Board) (row col : Nat) : Bool × Board :=
  if b.is_safe row col then
    (true, { b with grid := setCell b.grid row col true, queens_left := b.queens_left - 1 })
  else (false, b)

/-- All board cells in row-major order (the nested `for i ... for j ...`
iteration pattern of the Python code). -/
def pairList (n : Nat) : List (Nat × Nat) :=
  (List.range n).flatMap (fun i => (List.range n).map (fun j => (i, j)))

/-- `Board.get_safe_positions()`: the empty cells passing `is_safe`, in
row-major order. -/
def Board.get_safe_positions (b : Board) : List (Nat × Nat) :=
  (pairList b.size).filter (fun p => !(b.grid p.1 p.2) && b.is_safe p.1 p.2)

/-- `Board.evaluate()` of the alphabeta variant (constructive heuristic). -/
def Board.evaluate (b : Board) : Int :=
  let n : Int := (b.size : Int)
  let queens_placed : Int := n - b.queens_left
  if queens_placed = n then 1000
  else
    let safe_positions : Int := (b.get_safe_positions.length : Int)
    if safe_positions = 0 ∧ queens_placed < n then -1000
    else queens_placed * 10 + safe_positions

/-- `Board.is_game_over()` of the alphabeta variant: `queens_left == 0`. -/
def Board.is_game_over (b : Board) : Bool :=
  b.queens_left = 0

/-- Number of occupied cells of the grid (`np.sum(self.board)`). -/
def countQueens (b : Board) : Nat :=
  ((pairList b.size).filter (fun p => b.grid p.1 p.2)).length

/-- Grid-only cell write: the search engines poke `self.board.board[i, j]`
directly, without going through `place_queen`. -/
def Board.setOnly (b : Board) (i j : Nat) (v : Bool) : Board :=
  { b with grid := setCell b.grid i j v }

/-- The alpha-beta engine's move application: set the cell and decrement
`queens_left` (`alphabeta.py`, the `# Make move` block). -/
def Board.applyMove (b : Board) (i j : Nat) : Board :=
  { b with grid := setCell b.grid i j true, queens_left := b.queens_left - 1 }

/-- The alpha-beta engine's move undo: clear the cell and increment
`queens_left` (`alphabeta.py`, the `# Undo move` block). -/
def Board.undoMove (b : Board) (i j : Nat) : Board :=
  { b with grid := setCell b.grid i j false, queens_left := b.queens_left + 1 }

/-- Number of queens of row `i` (`np.sum(self.board, axis=1)` entry). -/
def rowCount (b : Board) (i : Nat) : Nat :=
  ((List.range b.size).filter (fun j => b.grid i j)).length

/-- Number of queens of column `j` (`np.sum(self.board, axis=0)` entry). -/
def colCount (b : Board) (j : Nat) : Nat :=
  ((List.range b.size).filter (fun i => b.grid i j)).length

/-- Number of queens on the diagonal of offset `k`
(`np.diagonal(self.board, k)`: cells `(i, i + k)`). -/
def diagCount (b : Board) (k : Int) : Nat :=
  ((List.range b.size).filter (fun (i : Nat) =>
    decide (0 ≤ (i : Int) + k) && decide ((i : Int) + k < (b.size : Int))
      && b.grid i (((i : Int) + k).toNat))).length

/-- Number of queens on the anti-diagonal of offset `k`
(`np.diagonal(np.fliplr(self.board), k)`: cells `(i, size - 1 - i - k)`). -/
def antidiagCount (b : Board) (k : Int) : Nat :=
  ((List.range b.size).filter (fun (i : Nat) =>
    decide (0 ≤ (i : Int) + k) && decide ((i : Int) + k < (b.size : Int))
      && b.grid i (((b.size : Int) - 1 - (i : Int) - k).toNat))).length

/-- `Board.evaluate()` of the minimax variant (conflict-counting
heuristic): number of rows, columns and diagonals holding more than one
queen. -/
def Board.evaluateConflict (b : Board) : Int :=
  let n := b.size
  let rowScore := ((List.range n).filter (fun i => decide (1 < rowCount b i))).length
  let colScore := ((List.range n).filter (fun j => decide (1 < colCount b j))).length
  let diagScore := ((List.range (2 * n - 1)).filter (fun i =>
    decide (1 < diagCount b ((i : Int) - (n : Int) + 1)))).length
  let antidiagScore := ((List.range (2 * n - 1)).filter (fun i =>
    decide (1 < antidiagCount b ((i : Int) - (n : Int) + 1)))).length
  ((rowScore + colScore + diagScore + antidiagScore : Nat) : Int)

/-! ## The alpha-beta search engine (`alphabeta/alphabeta.py`) -/

namespace AlphaBetaAI

/-- Sibling loop of the maximizing branch of `alpha_beta_search`: make the
move, recurse, undo the move, update `max_eval` and `alpha`, and stop early
when `beta <= alpha`.  `rec` is the recursion at depth `depth - 1` with the
minimizing flag. -/
def abLoopMax (rec : Score → Score → Board → Score × Board) :
    List (Nat × Nat) → Score → Score → Score → Board → Score × Board
  | [], _, _, acc, b => (acc, b)
  | p :: rest, alpha, beta, acc, b =>
    let r := rec alpha beta (b.applyMove p.1 p.2)
    let b2 := r.2.undoMove p.1 p.2
    let acc2 := max acc r.1
    let alpha2 := max alpha r.1
    if beta ≤ alpha2 then (acc2, b2)
    else abLoopMax rec rest alpha2 beta acc2 b2

/-- Sibling loop of the minimizing branch of `alpha_beta_search`. -/
def abLoopMin (rec : Score → Score → Board → Score × Board) :
    List (Nat × Nat) → Score → Score → Score → Board → Score × Board
  | [], _, _, acc, b => (acc, b)
  | p :: rest, alpha, beta, acc, b =>
    let r := rec alpha beta (b.applyMove p.1 p.2)
    let b2 := r.2.undoMove p.1 p.2
    let acc2 := min acc r.1
    let beta2 := min beta r.1
    if beta2 ≤ alpha then (acc2, b2)
    else abLoopMin rec rest alpha beta2 acc2 b2

/-- `AlphaBetaAI.alpha_beta_search(depth, alpha, beta, is_maximizing_player)`:
the board is threaded explicitly in place of the Python in-place mutation of
`self.board`. -/
def alpha_beta_search : Nat → Score → Score → Bool → Board → Score × Board
  | 0, _, _, _, b => (Score.int b.evaluate, b)
  | d + 1, alpha, beta, maxi, b =>
    if b.is_game_over then (Score.int b.evaluate, b)
    else
      let safe := b.get_safe_positions
      if safe.isEmpty then (Score.int b.evaluate, b)
      else if maxi then
        abLoopMax (fun a t bd => alpha_beta_search d a t false bd) safe alpha beta ⊥ b
      else
        abLoopMin (fun a t bd => alpha_beta_search d a t true bd) safe alpha beta ⊤ b

/-- Candidate loop of `AlphaBetaAI.get_best_move`: apply each safe
position, score it with a full-window `alpha_beta_search` from the
opponent's perspective, undo it, and keep the strictly best score. -/
def bestLoop (d : Nat) : List (Nat × Nat) → Score → Option (Nat × Nat) → Board →
    Option (Nat × Nat) × Board
  | [], _, best, b => (best, b)
  | p :: rest, best_score, best, b =>
    let r := alpha_beta_search d ⊥ ⊤ false (b.applyMove p.1 p.2)
    let b2 := r.2.undoMove p.1 p.2
    if best_score < r.1 then bestLoop d rest r.1 (some p) b2
    else bestLoop d rest best_score best b2

/-- `AlphaBetaAI.get_best_move()` at configured depth `d` (`max_depth`,
default 4): `None` when no safe position exists, otherwise the first
strictly-best candidate.  Search statistics are timing-only and omitted. -/
def get_best_move (d : Nat) (b : Board) : Option (Nat × Nat) × Board :=
  let safe := b.get_safe_positions
  if safe.isEmpty then (none, b)
  else bestLoop d safe ⊥ none b

end AlphaBetaAI

/-! ## The plain minimax engine (`minimax/minimax.py`) -/

namespace MinimaxAI

/-- Cell loop of `MinimaxAI.minimax`: scan all cells in row-major order,
and for each currently-empty safe cell set it, recurse, and clear it
again.  `queens_left` is not touched.  `maxi` selects between the
`max_eval` and `min_eval` accumulators. -/
def mmLoop (rec : Board → Score × Board) (maxi : Bool) :
    List (Nat × Nat) → Score → Board → Score × Board
  | [], acc, b => (acc, b)
  | p :: rest, acc, b =>
    if !(b.grid p.1 p.2) && b.is_safe p.1 p.2 then
      let r := rec (b.setOnly p.1 p.2 true)
      let b2 := r.2.setOnly p.1 p.2 false
      mmLoop rec maxi rest (if maxi then max acc r.1 else min acc r.1) b2
    else mmLoop rec maxi rest acc b

/-- `MinimaxAI.minimax(depth, is_maximizing_player)`: terminal test is
`depth == 0 or np.sum(board) == size`; no early return when no safe cell
exists, so an empty loop leaves the `float('-inf')`/`float('inf')`
accumulator as the result. -/
def minimax : Nat → Bool → Board → Score × Board
  | 0, _, b => (Score.int b.evaluateConflict, b)
  | d + 1, maxi, b =>
    if countQueens b = b.size then (Score.int b.evaluateConflict, b)
    else mmLoop (fun bd => minimax d (!maxi) bd) maxi (pairList b.size)
      (if maxi then ⊥ else ⊤) b

/-- Candidate loop of `MinimaxAI.get_best_move`: fixed search depth 3,
opponent's perspective, strict improvement to replace the best move. -/
def mmBestLoop : List (Nat × Nat) → Score → Option (Nat × Nat) → Board →
    Option (Nat × Nat) × Board
  | [], _, best, b => (best, b)
  | p :: rest, best_score, best, b =>
    let r := minimax 3 false (b.setOnly p.1 p.2 true)
    let b2 := r.2.setOnly p.1 p.2 false
    if best_score < r.1 then mmBestLoop rest r.1 (some p) b2
    else mmBestLoop rest best_score best b2

/-- `MinimaxAI.get_best_move()`: collect the valid moves in row-major
order, return `None` when there are none, otherwise evaluate each with
`minimax(3, False)` keeping the strictly best. -/
def get_best_move (b : Board) : Option (Nat × Nat) × Board :=
  let valid := (pairList b.size).filter (fun p => !(b.grid p.1 p.2) && b.is_safe p.1 p.2)
  if valid.isEmpty then (none, b)
  else mmBestLoop valid ⊥ none b

end MinimaxAI

/-- Modelled from the spec: the unpruned minimax value of a board, used to
state the pruning-equivalence property.  Terminal condition `depth == 0`
or `board.is_game_over()` or no safe positions remain returns
`board.evaluate()`; otherwise the value is the maximum (resp. minimum)
over the safe positions, applied in the board's canonical order, of the
depth-decremented value with the flag flipped. -/
def minimax_spec : Nat → Bool → Board → Score
  | 0, _, b => Score.int b.evaluate
  | d + 1, maxi, b =>
    if b.is_game_over then Score.int b.evaluate
    else
      let safe := b.get_safe_positions
      if safe.isEmpty then Score.int b.evaluate
      else if maxi then
        (safe.map (fun p => minimax_spec d false (b.applyMove p.1 p.2))).foldl max ⊥
      else
        (safe.map (fun p => minimax_spec d true (b.applyMove p.1 p.2))).foldl min ⊤

/-! ## Basic score and fold lemmas -/

theorem Score.int_ne_bot (v : Int) : Score.int v ≠ ⊥ := WithBot.coe_ne_bot

theorem Score.int_ne_top (v : Int) : Score.int v ≠ ⊤ := by
  simp only [Score.int]
  intro h
  exact WithTop.coe_ne_top (WithBot.coe_eq_top.mp h)

theorem Score.bot_lt_int (v : Int) : (⊥ : Score) < Score.int v := WithBot.bot_lt_coe _

theorem Score.int_lt_top (v : Int) : Score.int v < (⊤ : Score) := by
  have h : ((⊤ : WithTop Int) : WithBot (WithTop Int)) = (⊤ : Score) := rfl
  rw [Score.int, ← h, WithBot.coe_lt_coe]
  exact WithTop.coe_lt_top v

section FoldLemmas

variable {α : Type} [LinearOrder α]

theorem foldl_max_le_iff : ∀ (l : List α) (a x : α),
    List.foldl max a l ≤ x ↔ a ≤ x ∧ ∀ y ∈ l, y ≤ x := by
  intro l
  induction l with
  | nil => simp
  | cons b t ih =>
    intro a x
    simp only [List.foldl_cons, ih, max_le_iff, List.forall_mem_cons]
    tauto

theorem le_foldl_max_iff : ∀ (l : List α) (a x : α),
    x ≤ List.foldl max a l ↔ x ≤ a ∨ ∃ y ∈ l, x ≤ y := by
  intro l
  induction l with
  | nil => simp
  | cons b t ih =>
    intro a x
    simp only [List.foldl_cons, ih, le_max_iff, List.exists_mem_cons_iff]
    tauto

theorem foldl_max_cases : ∀ (l : List α) (a : α),
    List.foldl max a l = a ∨ List.foldl max a l ∈ l := by
  intro l
  induction l with
  | nil => simp
  | cons b t ih =>
    intro a
    rcases ih (max a b) with h | h
    · rcases max_choice a b with hc | hc
      · exact Or.inl (by rw [List.foldl_cons, h, hc])
      · exact Or.inr (by rw [List.foldl_cons, h, hc]; exact List.mem_cons_self _ _)
    · exact Or.inr (List.mem_cons_of_mem _ h)

theorem le_foldl_max_self (l : List α) (a : α) : a ≤ List.foldl max a l :=
  (le_foldl_max_iff l a a).mpr (Or.inl le_rfl)

theorem mem_le_foldl_max {l : List α} {y : α} (h : y ∈ l) (a : α) :
    y ≤ List.foldl max a l :=
  ((foldl_max_le_iff l a _).mp le_rfl).2 y h

theorem le_foldl_min_iff : ∀ (l : List α) (a x : α),
    x ≤ List.foldl min a l ↔ x ≤ a ∧ ∀ y ∈ l, x ≤ y := by
  intro l
  induction l with
  | nil => simp
  | cons b t ih =>
    intro a x
    simp only [List.foldl_cons, ih, le_min_iff, List.forall_mem_cons]
    tauto

theorem foldl_min_le_iff : ∀ (l : List α) (a x : α),
    List.foldl min a l ≤ x ↔ a ≤ x ∨ ∃ y ∈ l, y ≤ x := by
  intro l
  induction l with
  | nil => simp
  | cons b t ih =>
    intro a x
    simp only [List.foldl_cons, ih, min_le_iff, List.exists_mem_cons_iff]
    tauto

theorem foldl_min_cases : ∀ (l : List α) (a : α),
    List.foldl min a l = a ∨ List.foldl min a l ∈ l := by
  intro l
  induction l with
  | nil => simp
  | cons b t ih =>
    intro a
    rcases ih (min a b) with h | h
    · rcases min_choice a b with hc | hc
      · exact Or.inl (by rw [List.foldl_cons, h, hc])
      · exact Or.inr (by rw [List.foldl_cons, h, hc]; exact List.mem_cons_self _ _)
    · exact Or.inr (List.mem_cons_of_mem _ h)

theorem foldl_min_le_self (l : List α) (a : α) : List.foldl min a l ≤ a :=
  (foldl_min_le_iff l a a).mpr (Or.inl le_rfl)

theorem foldl_min_le_mem {l : List α} {y : α} (h : y ∈ l) (a : α) :
    List.foldl min a l ≤ y :=
  ((le_foldl_min_iff l a _).mp le_rfl).2 y h

end FoldLemmas

/-! ## Basic board lemmas -/

theorem Board.ext1 {a b : Board} (h1 : a.size = b.size) (h2 : a.grid = b.grid)
    (h3 : a.queens_left = b.queens_left) : a = b := by
  cases a; cases b; simp_all

theorem setCell_setCell_cancel {g : Nat → Nat → Bool} {i j : Nat} {v : Bool}
    (h : g i j = v) (w : Bool) : setCell (setCell g i j w) i j v = g := by
  funext x y
  simp only [setCell]
  split
  · next hxy => rw [hxy.1, hxy.2, h]
  · rfl

theorem undo_applyMove {b : Board} {i j : Nat} (h : b.grid i j = false) :
    (b.applyMove i j).undoMove i j = b := by
  apply Board.ext1
  · rfl
  · exact setCell_setCell_cancel h true
  · simp [Board.applyMove, Board.undoMove]

theorem setOnly_setOnly_cancel {b : Board} {i j : Nat} (h : b.grid i j = false) :
    ((b.setOnly i j true).setOnly i j false) = b := by
  apply Board.ext1
  · rfl
  · exact setCell_setCell_cancel h true
  · rfl

theorem mem_pairList {n : Nat} {p : Nat × Nat} :
    p ∈ pairList n ↔ p.1 < n ∧ p.2 < n := by
  cases p with
  | mk a c =>
    simp only [pairList, List.mem_flatMap, List.mem_map, List.mem_range]
    constructor
    · rintro ⟨i, hi, j, hj, hp⟩
      cases hp
      exact ⟨hi, hj⟩
    · rintro ⟨ha, hc⟩
      exact ⟨a, ha, c, hc, rfl⟩

theorem mem_get_safe_positions {b : Board} {p : Nat × Nat} :
    p ∈ b.get_safe_positions ↔
      p.1 < b.size ∧ p.2 < b.size ∧ b.grid p.1 p.2 = false ∧ b.is_safe p.1 p.2 = true := by
  simp only [Board.get_safe_positions, List.mem_filter, mem_pairList, Bool.and_eq_true,
    Bool.not_eq_true']
  tauto

theorem grid_false_of_mem_gsp {b : Board} {p : Nat × Nat}
    (h : p ∈ b.get_safe_positions) : b.grid p.1 p.2 = false :=
  (mem_get_safe_positions.mp h).2.2.1

/-! ## Board restoration (apply/undo round trip) -/

namespace AlphaBetaAI

theorem abLoopMax_board {rec : Score → Score → Board → Score × Board}
    (hrec : ∀ a t bd, (rec a t bd).2 = bd) :
    ∀ (l : List (Nat × Nat)) (alpha beta acc : Score) (b : Board),
      (∀ p ∈ l, b.grid p.1 p.2 = false) →
      (abLoopMax rec l alpha beta acc b).2 = b := by
  intro l
  induction l with
  | nil => intro alpha beta acc b _; rfl
  | cons p rest ih =>
    intro alpha beta acc b hcells
    have hb : (rec alpha beta (b.applyMove p.1 p.2)).2 = b.applyMove p.1 p.2 := hrec _ _ _
    have hundo : ((rec alpha beta (b.applyMove p.1 p.2)).2).undoMove p.1 p.2 = b := by
      rw [hb]; exact undo_applyMove (hcells p (List.mem_cons_self _ _))
    simp only [abLoopMax]
    split
    · exact hundo
    · rw [hundo]
      exact ih _ _ _ _ (fun q hq => hcells q (List.mem_cons_of_mem _ hq))

theorem abLoopMin_board {rec : Score → Score → Board → Score × Board}
    (hrec : ∀ a t bd, (rec a t bd).2 = bd) :
    ∀ (l : List (Nat × Nat)) (alpha beta acc : Score) (b : Board),
      (∀ p ∈ l, b.grid p.1 p.2 = false) →
      (abLoopMin rec l alpha beta acc b).2 = b := by
  intro l
  induction l with
  | nil => intro alpha beta acc b _; rfl
  | cons p rest ih =>
    intro alpha beta acc b hcells
    have hb : (rec alpha beta (b.applyMove p.1 p.2)).2 = b.applyMove p.1 p.2 := hrec _ _ _
    have hundo : ((rec alpha beta (b.applyMove p.1 p.2)).2).undoMove p.1 p.2 = b := by
      rw [hb]; exact undo_applyMove (hcells p (List.mem_cons_self _ _))
    simp only [abLoopMin]
    split
    · exact hundo
    · rw [hundo]
      exact ih _ _ _ _ (fun q hq => hcells q (List.mem_cons_of_mem _ hq))

theorem alpha_beta_search_board :
    ∀ (d : Nat) (alpha beta : Score) (maxi : Bool) (b : Board),
      (alpha_beta_search d alpha beta maxi b).2 = b := by
  intro d
  induction d with
  | zero => intro alpha beta maxi b; rfl
  | succ d ih =>
    intro alpha beta maxi b
    simp only [alpha_beta_search]
    split
    · rfl
    · split
      · rfl
      · split
        · exact abLoopMax_board (fun a t bd => ih a t false bd) _ _ _ _ _
            (fun q hq => grid_false_of_mem_gsp hq)
        · exact abLoopMin_board (fun a t bd => ih a t true bd) _ _ _ _ _
            (fun q hq => grid_false_of_mem_gsp hq)

theorem bestLoop_board (d : Nat) :
    ∀ (l : List (Nat × Nat)) (bs : Score) (best : Option (Nat × Nat)) (b : Board),
      (∀ p ∈ l, b.grid p.1 p.2 = false) →
      (bestLoop d l bs best b).2 = b := by
  intro l
  induction l with
  | nil => intro bs best b _; rfl
  | cons p rest ih =>
    intro bs best b hcells
    have hb : (alpha_beta_search d ⊥ ⊤ false (b.applyMove p.1 p.2)).2 = b.applyMove p.1 p.2 :=
      alpha_beta_search_board _ _ _ _ _
    have hundo : ((alpha_beta_search d ⊥ ⊤ false (b.applyMove p.1 p.2)).2).undoMove p.1 p.2 = b := by
      rw [hb]; exact undo_applyMove (hcells p (List.mem_cons_self _ _))
    simp only [bestLoop]
    split
    · rw [hundo]; exact ih _ _ _ (fun q hq => hcells q (List.mem_cons_of_mem _ hq))
    · rw [hundo]; exact ih _ _ _ (fun q hq => hcells q (List.mem_cons_of_mem _ hq))

end AlphaBetaAI

namespace MinimaxAI

theorem mmLoop_board {rec : Board → Score × Board} (hrec : ∀ bd, (rec bd).2 = bd)
    (maxi : Bool) :
    ∀ (l : List (Nat × Nat)) (acc : Score) (b : Board),
      (mmLoop rec maxi l acc b).2 = b := by
  intro l
  induction l with
  | nil => intro acc b; rfl
  | cons p rest ih =>
    intro acc b
    simp only [mmLoop]
    split
    · next hcond =>
      have hg : b.grid p.1 p.2 = false := by
        have h2 := (Bool.and_eq_true _ _).mp hcond
        cases hgb : b.grid p.1 p.2
        · rfl
        · rw [hgb] at h2
          exact absurd h2.1 (by decide)
      have hb : (rec (b.setOnly p.1 p.2 true)).2 = b.setOnly p.1 p.2 true := hrec _
      rw [hb, setOnly_setOnly_cancel hg]
      exact ih _ _
    · exact ih _ _

theorem minimax_board :
    ∀ (d : Nat) (maxi : Bool) (b : Board), (minimax d maxi b).2 = b := by
  intro d
  induction d with
  | zero => intro maxi b; rfl
  | succ d ih =>
    intro maxi b
    simp only [minimax]
    split
    · rfl
    · exact mmLoop_board (fun bd => ih (!maxi) bd) maxi _ _ _

end MinimaxAI

/-! ## Finiteness of search results -/

namespace AlphaBetaAI

theorem abLoopMax_acc_le {rec : Score → Score → Board → Score × Board} :
    ∀ (l : List (Nat × Nat)) (alpha beta acc : Score) (b : Board),
      acc ≤ (abLoopMax rec l alpha beta acc b).1 := by
  intro l
  induction l with
  | nil => intro alpha beta acc b; exact le_rfl
  | cons p rest ih =>
    intro alpha beta acc b
    simp only [abLoopMax]
    split
    · exact le_max_left _ _
    · exact le_trans (le_max_left _ _) (ih _ _ _ _)

theorem abLoopMin_le_acc {rec : Score → Score → Board → Score × Board} :
    ∀ (l : List (Nat × Nat)) (alpha beta acc : Score) (b : Board),
      (abLoopMin rec l alpha beta acc b).1 ≤ acc := by
  intro l
  induction l with
  | nil => intro alpha beta acc b; exact le_rfl
  | cons p rest ih =>
    intro alpha beta acc b
    simp only [abLoopMin]
    split
    · exact min_le_left _ _
    · exact le_trans (ih _ _ _ _) (min_le_left _ _)

theorem abLoopMax_ne_top {rec : Score → Score → Board → Score × Board}
    (hrec : ∀ a t bd, (rec a t bd).1 ≠ ⊤) :
    ∀ (l : List (Nat × Nat)) (alpha beta acc : Score) (b : Board), acc ≠ ⊤ →
      (abLoopMax rec l alpha beta acc b).1 ≠ ⊤ := by
  intro l
  induction l with
  | nil => intro alpha beta acc b hacc; exact hacc
  | cons p rest ih =>
    intro alpha beta acc b hacc
    have hmax : max acc (rec alpha beta (b.applyMove p.1 p.2)).1 ≠ ⊤ := by
      rcases max_choice acc (rec alpha beta (b.applyMove p.1 p.2)).1 with h | h <;> rw [h]
      · exact hacc
      · exact hrec _ _ _
    simp only [abLoopMax]
    split
    · exact hmax
    · exact ih _ _ _ _ hmax

theorem abLoopMin_ne_bot {rec : Score → Score → Board → Score × Board}
    (hrec : ∀ a t bd, (rec a t bd).1 ≠ ⊥) :
    ∀ (l : List (Nat × Nat)) (alpha beta acc : Score) (b : Board), acc ≠ ⊥ →
      (abLoopMin rec l alpha beta acc b).1 ≠ ⊥ := by
  intro l
  induction l with
  | nil => intro alpha beta acc b hacc; exact hacc
  | cons p rest ih =>
    intro alpha beta acc b hacc
    have hmin : min acc (rec alpha beta (b.applyMove p.1 p.2)).1 ≠ ⊥ := by
      rcases min_choice acc (rec alpha beta (b.applyMove p.1 p.2)).1 with h | h <;> rw [h]
      · exact hacc
      · exact hrec _ _ _
    simp only [abLoopMin]
    split
    · exact hmin
    · exact ih _ _ _ _ hmin

theorem abLoopMax_ne_bot {rec : Score → Score → Board → Score × Board}
    (hrec : ∀ a t bd, (rec a t bd).1 ≠ ⊥) :
    ∀ (p : Nat × Nat) (rest : List (Nat × Nat)) (alpha beta acc : Score) (b : Board),
      (abLoopMax rec (p :: rest) alpha beta acc b).1 ≠ ⊥ := by
  intro p rest alpha beta acc b
  have hs : (⊥ : Score) < (rec alpha beta (b.applyMove p.1 p.2)).1 :=
    Ne.bot_lt (hrec _ _ _)
  have hge : max acc (rec alpha beta (b.applyMove p.1 p.2)).1 ≤
      (abLoopMax rec (p :: rest) alpha beta acc b).1 := by
    simp only [abLoopMax]
    split
    · exact le_rfl
    · exact abLoopMax_acc_le _ _ _ _ _
  have hlt : (⊥ : Score) < (abLoopMax rec (p :: rest) alpha beta acc b).1 :=
    lt_of_lt_of_le (lt_of_lt_of_le hs (le_max_right _ _)) hge
  exact ne_of_gt hlt

theorem abLoopMin_ne_top {rec : Score → Score → Board → Score × Board}
    (hrec : ∀ a t bd, (rec a t bd).1 ≠ ⊤) :
    ∀ (p : Nat × Nat) (rest : List (Nat × Nat)) (alpha beta acc : Score) (b : Board),
      (abLoopMin rec (p :: rest) alpha beta acc b).1 ≠ ⊤ := by
  intro p rest alpha beta acc b
  have hs : (rec alpha beta (b.applyMove p.1 p.2)).1 < (⊤ : Score) :=
    Ne.lt_top (hrec _ _ _)
  have hge : (abLoopMin rec (p :: rest) alpha beta acc b).1 ≤
      min acc (rec alpha beta (b.applyMove p.1 p.2)).1 := by
    simp only [abLoopMin]
    split
    · exact le_rfl
    · exact abLoopMin_le_acc _ _ _ _ _
  have hlt : (abLoopMin rec (p :: rest) alpha beta acc b).1 < (⊤ : Score) :=
    lt_of_le_of_lt (le_trans hge (min_le_right _ _)) hs
  exact ne_of_lt hlt

theorem alpha_beta_search_finite :
    ∀ (d : Nat) (alpha beta : Score) (maxi : Bool) (b : Board),
      (alpha_beta_search d alpha beta maxi b).1 ≠ ⊥ ∧
      (alpha_beta_search d alpha beta maxi b).1 ≠ ⊤ := by
  intro d
  induction d with
  | zero =>
    intro alpha beta maxi b
    exact ⟨Score.int_ne_bot _, Score.int_ne_top _⟩
  | succ d ih =>
    intro alpha beta maxi b
    simp only [alpha_beta_search]
    split
    · exact ⟨Score.int_ne_bot _, Score.int_ne_top _⟩
    split
    · exact ⟨Score.int_ne_bot _, Score.int_ne_top _⟩
    · next hne =>
      rcases hl : b.get_safe_positions with _ | ⟨p, rest⟩
      · rw [hl] at hne; exact absurd rfl hne
      · split
        · constructor
          · exact abLoopMax_ne_bot (fun a t bd => (ih a t false bd).1) p rest _ _ _ _
          · exact abLoopMax_ne_top (fun a t bd => (ih a t false bd).2) _ _ _ _ _ (by
              intro h
              exact absurd h (by decide))
        · constructor
          · exact abLoopMin_ne_bot (fun a t bd => (ih a t true bd).1) _ _ _ _ _ (by
              intro h
              exact absurd h (by decide))
          · exact abLoopMin_ne_top (fun a t bd => (ih a t true bd).2) p rest _ _ _ _

end AlphaBetaAI

/-! ## Fail-soft bounds: pruning never changes the full-window value -/

namespace AlphaBetaAI

theorem abLoopMax_bounds {rec : Score → Score → Board → Score × Board}
    {mval : Board → Score}
    (hpres : ∀ a t bd, (rec a t bd).2 = bd)
    (hrec : ∀ a t bd, a < t →
      ((rec a t bd).1 ≤ a → mval bd ≤ (rec a t bd).1) ∧
      (t ≤ (rec a t bd).1 → (rec a t bd).1 ≤ mval bd) ∧
      (a < (rec a t bd).1 → (rec a t bd).1 < t → (rec a t bd).1 = mval bd)) :
    ∀ (l : List (Nat × Nat)) (b : Board) (alpha beta acc : Score),
      alpha < beta →
      (∀ p ∈ l, b.grid p.1 p.2 = false) →
      acc ≤ (abLoopMax rec l alpha beta acc b).1 ∧
      ((abLoopMax rec l alpha beta acc b).1 ≤ alpha →
        List.foldl max acc (l.map (fun p => mval (b.applyMove p.1 p.2))) ≤
          (abLoopMax rec l alpha beta acc b).1) ∧
      (beta ≤ (abLoopMax rec l alpha beta acc b).1 →
        (abLoopMax rec l alpha beta acc b).1 ≤
          List.foldl max acc (l.map (fun p => mval (b.applyMove p.1 p.2)))) ∧
      ((alpha < (abLoopMax rec l alpha beta acc b).1 ∧
          (abLoopMax rec l alpha beta acc b).1 < beta) →
        (abLoopMax rec l alpha beta acc b).1 =
          List.foldl max acc (l.map (fun p => mval (b.applyMove p.1 p.2)))) := by
  intro l
  induction l with
  | nil =>
    intro b alpha beta acc _ _
    exact ⟨le_rfl, fun _ => le_rfl, fun _ => le_rfl, fun _ => rfl⟩
  | cons p rest ih =>
    intro b alpha beta acc hab hcells
    have hboard : (rec alpha beta (b.applyMove p.1 p.2)).2 = b.applyMove p.1 p.2 := hpres _ _ _
    have hundo : ((rec alpha beta (b.applyMove p.1 p.2)).2).undoMove p.1 p.2 = b := by
      rw [hboard]; exact undo_applyMove (hcells p (List.mem_cons_self _ _))
    set s := (rec alpha beta (b.applyMove p.1 p.2)).1 with hs
    set vp := mval (b.applyMove p.1 p.2) with hvp
    obtain ⟨c1, c2, c3⟩ := hrec alpha beta (b.applyMove p.1 p.2) hab
    rw [← hs, ← hvp] at c1 c2 c3
    have hfold : List.foldl max acc ((p :: rest).map (fun q => mval (b.applyMove q.1 q.2))) =
        List.foldl max (max acc vp) (rest.map (fun q => mval (b.applyMove q.1 q.2))) := by
      simp [hvp]
    rw [hfold]
    set restvals := rest.map (fun q => mval (b.applyMove q.1 q.2)) with hrv
    simp only [abLoopMax, ← hs, hundo]
    by_cases hprune : beta ≤ max alpha s
    · rw [if_pos hprune]
      have hbs : beta ≤ s := by
        rcases le_max_iff.mp hprune with h | h
        · exact absurd hab (not_lt.mpr h)
        · exact h
      have hsv : s ≤ vp := c2 hbs
      refine ⟨le_max_left _ _, ?_, ?_, ?_⟩
      · intro hRa
        have : s ≤ alpha := le_trans (le_max_right acc s) hRa
        exact absurd (lt_of_lt_of_le hab hbs) (not_lt.mpr this)
      · intro _
        have h1 : max acc s ≤ max acc vp := max_le (le_max_left _ _)
          (le_trans hsv (le_max_right _ _))
        exact le_trans h1 (le_foldl_max_self _ _)
      · rintro ⟨_, hRb⟩
        have : beta ≤ max acc s := le_trans hbs (le_max_right _ _)
        exact absurd hRb (not_lt.mpr this)
    · rw [if_neg hprune]
      have halpha2 : max alpha s < beta := not_le.mp hprune
      obtain ⟨iha, ih1, ih2, ih3⟩ := ih b (max alpha s) beta (max acc s) halpha2
        (fun q hq => hcells q (List.mem_cons_of_mem _ hq))
      rw [← hrv] at ih1 ih2 ih3
      set R := (abLoopMax rec rest (max alpha s) beta (max acc s) b).1 with hR
      have hsR : s ≤ R := le_trans (le_max_right acc s) iha
      refine ⟨le_trans (le_max_left acc s) iha, ?_, ?_, ?_⟩
      · -- fail low
        intro hRa
        have hRa2 : R ≤ max alpha s := le_trans hRa (le_max_left _ _)
        have hW' := ih1 hRa2
        obtain ⟨hacc2R, hrestR⟩ := (foldl_max_le_iff restvals (max acc s) R).mp hW'
        have hsa : s ≤ alpha := le_trans (le_trans (le_max_right acc s) hacc2R) hRa
        have hvs : vp ≤ s := c1 hsa
        refine (foldl_max_le_iff restvals (max acc vp) R).mpr ⟨?_, hrestR⟩
        exact max_le (le_trans (le_max_left acc s) hacc2R)
          (le_trans hvs (le_trans (le_max_right acc s) hacc2R))
      · -- fail high
        intro hRb
        have hRW' := ih2 hRb
        rcases (le_foldl_max_iff restvals (max acc s) R).mp hRW' with h | ⟨y, hy, hRy⟩
        · rcases le_max_iff.mp h with h2 | h2
          · exact le_trans h2 (le_trans (le_max_left acc vp) (le_foldl_max_self _ _))
          · have hsv : s ≤ vp := c2 (le_trans hRb h2)
            exact le_trans h2 (le_trans hsv
              (le_trans (le_max_right acc vp) (le_foldl_max_self _ _)))
        · exact le_trans hRy (mem_le_foldl_max hy _)
      · -- exact window
        rintro ⟨hA, hB⟩
        by_cases halr : max alpha s < R
        · have hRW' : R = List.foldl max (max acc s) restvals := ih3 ⟨halr, hB⟩
          by_cases hsa : s ≤ alpha
          · have hvs : vp ≤ s := c1 hsa
            obtain ⟨hacc2R, hrestR⟩ := (foldl_max_le_iff restvals (max acc s) R).mp
              (le_of_eq hRW'.symm)
            have hWleR : List.foldl max (max acc vp) restvals ≤ R :=
              (foldl_max_le_iff restvals (max acc vp) R).mpr
                ⟨max_le (le_trans (le_max_left acc s) hacc2R)
                  (le_trans hvs (le_trans (le_max_right acc s) hacc2R)), hrestR⟩
            have hRleW : R ≤ List.foldl max (max acc vp) restvals := by
              rcases foldl_max_cases restvals (max acc s) with hc | hc
              · rw [hRW', hc]
                rcases max_choice acc s with hm | hm
                · rw [hm]
                  exact le_trans (le_max_left acc vp) (le_foldl_max_self _ _)
                · rw [hm]
                  have : s < R := lt_of_le_of_lt hsa hA
                  rw [hRW', hc, hm] at this
                  exact absurd this (lt_irrefl s)
              · rw [hRW']
                exact mem_le_foldl_max hc _
            exact le_antisymm hRleW hWleR
          · have hsa2 : alpha < s := not_le.mp hsa
            by_cases hsb : s < beta
            · have hsvp : s = vp := c3 hsa2 hsb
              rw [hRW', ← hsvp]
            · have : beta ≤ max alpha s := le_trans (not_lt.mp hsb) (le_max_right _ _)
              exact absurd halpha2 (not_lt.mpr this)
        · have hR2 : R ≤ max alpha s := not_lt.mp halr
          have hRs : R ≤ s := by
            rcases le_max_iff.mp hR2 with h | h
            · exact absurd hA (not_lt.mpr h)
            · exact h
          have hRs_eq : R = s := le_antisymm hRs hsR
          have hsvp : s = vp := c3 (hRs_eq ▸ hA) (hRs_eq ▸ hB)
          have hW' := ih1 hR2
          obtain ⟨hacc2R, hrestR⟩ := (foldl_max_le_iff restvals (max acc s) R).mp hW'
          have hWleR : List.foldl max (max acc vp) restvals ≤ R :=
            (foldl_max_le_iff restvals (max acc vp) R).mpr
              ⟨by rw [← hsvp]; exact hacc2R, hrestR⟩
          have hRleW : R ≤ List.foldl max (max acc vp) restvals := by
            rw [hRs_eq, hsvp]
            exact le_trans (le_max_right acc vp) (le_foldl_max_self _ _)
          exact le_antisymm hRleW hWleR

end AlphaBetaAI

namespace AlphaBetaAI

theorem abLoopMin_bounds {rec : Score → Score → Board → Score × Board}
    {mval : Board → Score}
    (hpres : ∀ a t bd, (rec a t bd).2 = bd)
    (hrec : ∀ a t bd, a < t →
      ((rec a t bd).1 ≤ a → mval bd ≤ (rec a t bd).1) ∧
      (t ≤ (rec a t bd).1 → (rec a t bd).1 ≤ mval bd) ∧
      (a < (rec a t bd).1 → (rec a t bd).1 < t → (rec a t bd).1 = mval bd)) :
    ∀ (l : List (Nat × Nat)) (b : Board) (alpha beta acc : Score),
      alpha < beta →
      (∀ p ∈ l, b.grid p.1 p.2 = false) →
      (abLoopMin rec l alpha beta acc b).1 ≤ acc ∧
      ((abLoopMin rec l alpha beta acc b).1 ≤ alpha →
        List.foldl min acc (l.map (fun p => mval (b.applyMove p.1 p.2))) ≤
          (abLoopMin rec l alpha beta acc b).1) ∧
      (beta ≤ (abLoopMin rec l alpha beta acc b).1 →
        (abLoopMin rec l alpha beta acc b).1 ≤
          List.foldl min acc (l.map (fun p => mval (b.applyMove p.1 p.2)))) ∧
      ((alpha < (abLoopMin rec l alpha beta acc b).1 ∧
          (abLoopMin rec l alpha beta acc b).1 < beta) →
        (abLoopMin rec l alpha beta acc b).1 =
          List.foldl min acc (l.map (fun p => mval (b.applyMove p.1 p.2)))) := by
  intro l
  induction l with
  | nil =>
    intro b alpha beta acc _ _
    exact ⟨le_rfl, fun _ => le_rfl, fun _ => le_rfl, fun _ => rfl⟩
  | cons p rest ih =>
    intro b alpha beta acc hab hcells
    have hboard : (rec alpha beta (b.applyMove p.1 p.2)).2 = b.applyMove p.1 p.2 := hpres _ _ _
    have hundo : ((rec alpha beta (b.applyMove p.1 p.2)).2).undoMove p.1 p.2 = b := by
      rw [hboard]; exact undo_applyMove (hcells p (List.mem_cons_self _ _))
    set s := (rec alpha beta (b.applyMove p.1 p.2)).1 with hs
    set vp := mval (b.applyMove p.1 p.2) with hvp
    obtain ⟨c1, c2, c3⟩ := hrec alpha beta (b.applyMove p.1 p.2) hab
    rw [← hs, ← hvp] at c1 c2 c3
    have hfold : List.foldl min acc ((p :: rest).map (fun q => mval (b.applyMove q.1 q.2))) =
        List.foldl min (min acc vp) (rest.map (fun q => mval (b.applyMove q.1 q.2))) := by
      simp [hvp]
    rw [hfold]
    set restvals := rest.map (fun q => mval (b.applyMove q.1 q.2)) with hrv
    simp only [abLoopMin, ← hs, hundo]
    by_cases hprune : min beta s ≤ alpha
    · rw [if_pos hprune]
      have hsa : s ≤ alpha := by
        rcases min_le_iff.mp hprune with h | h
        · exact absurd hab (not_lt.mpr h)
        · exact h
      have hvs : vp ≤ s := c1 hsa
      refine ⟨min_le_left _ _, ?_, ?_, ?_⟩
      · intro _
        have h1 : min acc vp ≤ min acc s := le_min (min_le_left _ _)
          (le_trans (min_le_right _ _) hvs)
        exact le_trans (foldl_min_le_self _ _) h1
      · intro hRb
        have : beta ≤ s := le_trans hRb (min_le_right acc s)
        exact absurd (lt_of_le_of_lt (le_trans this hsa) hab) (lt_irrefl beta)
      · rintro ⟨hA, _⟩
        have : min acc s ≤ alpha := le_trans (min_le_right _ _) hsa
        exact absurd hA (not_lt.mpr this)
    · rw [if_neg hprune]
      have hbeta2 : alpha < min beta s := not_le.mp hprune
      obtain ⟨iha, ih1, ih2, ih3⟩ := ih b alpha (min beta s) (min acc s) hbeta2
        (fun q hq => hcells q (List.mem_cons_of_mem _ hq))
      rw [← hrv] at ih1 ih2 ih3
      set R := (abLoopMin rec rest alpha (min beta s) (min acc s) b).1 with hR
      have hRs : R ≤ s := le_trans iha (min_le_right acc s)
      refine ⟨le_trans iha (min_le_left acc s), ?_, ?_, ?_⟩
      · -- fail low
        intro hRa
        have hW' := ih1 hRa
        rcases (foldl_min_le_iff restvals (min acc s) R).mp hW' with h | ⟨y, hy, hyR⟩
        · rcases min_le_iff.mp h with h2 | h2
          · exact le_trans (le_trans (foldl_min_le_self _ _) (min_le_left acc vp)) h2
          · have hvs : vp ≤ s := c1 (le_trans h2 hRa)
            exact le_trans (le_trans (foldl_min_le_self _ _)
              (le_trans (min_le_right acc vp) hvs)) h2
        · exact le_trans (foldl_min_le_mem hy _) hyR
      · -- fail high
        intro hRb
        have hRb2 : min beta s ≤ R := le_trans (min_le_left _ _) hRb
        have hW' := ih2 hRb2
        obtain ⟨hacc2R, hrestR⟩ := (le_foldl_min_iff restvals (min acc s) R).mp hW'
        have hbs : beta ≤ s := le_trans hRb hRs
        have hsv : s ≤ vp := c2 hbs
        refine (le_foldl_min_iff restvals (min acc vp) R).mpr ⟨?_, hrestR⟩
        exact le_min (le_trans hacc2R (min_le_left acc s))
          (le_trans (le_trans hacc2R (min_le_right acc s)) hsv)
      · -- exact window
        rintro ⟨hA, hB⟩
        by_cases hrb : R < min beta s
        · have hRW' : R = List.foldl min (min acc s) restvals := ih3 ⟨hA, hrb⟩
          by_cases hsb : beta ≤ s
          · have hsv : s ≤ vp := c2 hsb
            obtain ⟨hacc2R, hrestR⟩ := (le_foldl_min_iff restvals (min acc s) R).mp
              (le_of_eq hRW')
            have hRleW : R ≤ List.foldl min (min acc vp) restvals :=
              (le_foldl_min_iff restvals (min acc vp) R).mpr
                ⟨le_min (le_trans hacc2R (min_le_left acc s))
                  (le_trans (le_trans hacc2R (min_le_right acc s)) hsv), hrestR⟩
            have hWleR : List.foldl min (min acc vp) restvals ≤ R := by
              rcases foldl_min_cases restvals (min acc s) with hc | hc
              · rw [hRW', hc]
                rcases min_choice acc s with hm | hm
                · rw [hm]
                  exact le_trans (foldl_min_le_self _ _) (min_le_left acc vp)
                · rw [hm]
                  have : R < s := lt_of_lt_of_le hB hsb
                  rw [hRW', hc, hm] at this
                  exact absurd this (lt_irrefl s)
              · rw [hRW']
                exact foldl_min_le_mem hc _
            exact le_antisymm hRleW hWleR
          · have hsb2 : s < beta := not_le.mp hsb
            by_cases hsa : alpha < s
            · have hsvp : s = vp := c3 hsa hsb2
              rw [hRW', ← hsvp]
            · have h1 : min beta s ≤ alpha := le_trans (min_le_right _ _) (not_lt.mp hsa)
              exact absurd hbeta2 (not_lt.mpr h1)
        · have hR2 : min beta s ≤ R := not_lt.mp hrb
          have hsR : s ≤ R := by
            rcases min_le_iff.mp hR2 with h | h
            · exact absurd hB (not_lt.mpr h)
            · exact h
          have hRs_eq : R = s := le_antisymm hRs hsR
          have hsvp : s = vp := c3 (hRs_eq ▸ hA) (hRs_eq ▸ hB)
          have hW' := ih2 hR2
          obtain ⟨hacc2R, hrestR⟩ := (le_foldl_min_iff restvals (min acc s) R).mp hW'
          have hRleW : R ≤ List.foldl min (min acc vp) restvals :=
            (le_foldl_min_iff restvals (min acc vp) R).mpr
              ⟨by rw [← hsvp]; exact hacc2R, hrestR⟩
          have hWleR : List.foldl min (min acc vp) restvals ≤ R := by
            rw [hRs_eq, hsvp]
            exact le_trans (foldl_min_le_self _ _) (min_le_right acc vp)
          exact le_antisymm hRleW hWleR

end AlphaBetaAI

namespace AlphaBetaAI

theorem ab_minimax_bounds :
    ∀ (d : Nat) (maxi : Bool) (b : Board) (alpha beta : Score), alpha < beta →
      ((alpha_beta_search d alpha beta maxi b).1 ≤ alpha →
        minimax_spec d maxi b ≤ (alpha_beta_search d alpha beta maxi b).1) ∧
      (beta ≤ (alpha_beta_search d alpha beta maxi b).1 →
        (alpha_beta_search d alpha beta maxi b).1 ≤ minimax_spec d maxi b) ∧
      (alpha < (alpha_beta_search d alpha beta maxi b).1 →
        (alpha_beta_search d alpha beta maxi b).1 < beta →
        (alpha_beta_search d alpha beta maxi b).1 = minimax_spec d maxi b) := by
  intro d
  induction d with
  | zero =>
    intro maxi b alpha beta _
    exact ⟨fun _ => le_rfl, fun _ => le_rfl, fun _ _ => rfl⟩
  | succ d ih =>
    intro maxi b alpha beta hab
    simp only [alpha_beta_search, minimax_spec]
    split
    · exact ⟨fun _ => le_rfl, fun _ => le_rfl, fun _ _ => rfl⟩
    split
    · exact ⟨fun _ => le_rfl, fun _ => le_rfl, fun _ _ => rfl⟩
    · split
      · -- maximizing node
        obtain ⟨_, h1, h2, h3⟩ := @abLoopMax_bounds
          (fun a t bd => alpha_beta_search d a t false bd)
          (fun bd => minimax_spec d false bd)
          (fun a t bd => alpha_beta_search_board d a t false bd)
          (fun a t bd h => ih false bd a t h)
          b.get_safe_positions b alpha beta ⊥ hab
          (fun q hq => grid_false_of_mem_gsp hq)
        exact ⟨h1, h2, fun ha hb => h3 ⟨ha, hb⟩⟩
      · -- minimizing node
        obtain ⟨_, h1, h2, h3⟩ := @abLoopMin_bounds
          (fun a t bd => alpha_beta_search d a t true bd)
          (fun bd => minimax_spec d true bd)
          (fun a t bd => alpha_beta_search_board d a t true bd)
          (fun a t bd h => ih true bd a t h)
          b.get_safe_positions b alpha beta ⊤ hab
          (fun q hq => grid_false_of_mem_gsp hq)
        exact ⟨h1, h2, fun ha hb => h3 ⟨ha, hb⟩⟩

theorem ab_full_window_eq (d : Nat) (maxi : Bool) (b : Board) :
    (alpha_beta_search d ⊥ ⊤ maxi b).1 = minimax_spec d maxi b := by
  have hbt : (⊥ : Score) < ⊤ :=
    lt_trans (Score.bot_lt_int 0) (Score.int_lt_top 0)
  obtain ⟨h1, h2, h3⟩ := ab_minimax_bounds d maxi b ⊥ ⊤ hbt
  by_cases hb : (alpha_beta_search d ⊥ ⊤ maxi b).1 ≤ ⊥
  · have hr : (alpha_beta_search d ⊥ ⊤ maxi b).1 = ⊥ := le_bot_iff.mp hb
    have hv : minimax_spec d maxi b = ⊥ := le_bot_iff.mp (hr ▸ h1 hb)
    rw [hr, hv]
  · by_cases ht : (⊤ : Score) ≤ (alpha_beta_search d ⊥ ⊤ maxi b).1
    · have hr : (alpha_beta_search d ⊥ ⊤ maxi b).1 = ⊤ := top_le_iff.mp ht
      have hv : (⊤ : Score) ≤ minimax_spec d maxi b := hr ▸ h2 ht
      rw [hr, top_le_iff.mp hv]
    · exact h3 (not_le.mp hb) (not_le.mp ht)

end AlphaBetaAI

/-! ## Characterisation of the best-move selection loop -/

/-- Abstract form of the candidate loop of `get_best_move`: keep the first
candidate whose score strictly exceeds the best score seen so far. -/
def firstArgmax (sc : Nat × Nat → Score) :
    List (Nat × Nat) → Score → Option (Nat × Nat) → Option (Nat × Nat)
  | [], _, best => best
  | p :: rest, bs, best =>
    if bs < sc p then firstArgmax sc rest (sc p) (some p)
    else firstArgmax sc rest bs best

theorem firstArgmax_const {sc : Nat × Nat → Score} :
    ∀ (l : List (Nat × Nat)) (bs : Score) (best : Option (Nat × Nat)),
      (∀ p ∈ l, sc p ≤ bs) → firstArgmax sc l bs best = best := by
  intro l
  induction l with
  | nil => intro bs best _; rfl
  | cons p rest ih =>
    intro bs best hle
    have hp : ¬ bs < sc p := not_lt.mpr (hle p (List.mem_cons_self _ _))
    simp only [firstArgmax, if_neg hp]
    exact ih bs best (fun q hq => hle q (List.mem_cons_of_mem _ hq))

theorem firstArgmax_mem {sc : Nat × Nat → Score} :
    ∀ (l : List (Nat × Nat)) (bs : Score) (best : Option (Nat × Nat)),
      firstArgmax sc l bs best = best ∨ ∃ m ∈ l, firstArgmax sc l bs best = some m := by
  intro l
  induction l with
  | nil => intro bs best; exact Or.inl rfl
  | cons p rest ih =>
    intro bs best
    simp only [firstArgmax]
    split
    · rcases ih (sc p) (some p) with h | ⟨m, hm, h⟩
      · exact Or.inr ⟨p, List.mem_cons_self _ _, h⟩
      · exact Or.inr ⟨m, List.mem_cons_of_mem _ hm, h⟩
    · rcases ih bs best with h | ⟨m, hm, h⟩
      · exact Or.inl h
      · exact Or.inr ⟨m, List.mem_cons_of_mem _ hm, h⟩

theorem firstArgmax_split {sc : Nat × Nat → Score} :
    ∀ (l : List (Nat × Nat)) (bs : Score) (best : Option (Nat × Nat)),
      (∃ p ∈ l, bs < sc p) →
      ∃ l1 m l2, l = l1 ++ m :: l2 ∧ bs < sc m ∧
        (∀ x ∈ l1, sc x < sc m) ∧ (∀ y ∈ l2, sc y ≤ sc m) ∧
        firstArgmax sc l bs best = some m := by
  intro l
  induction l with
  | nil => rintro bs best ⟨p, hp, _⟩; cases hp
  | cons p rest ih =>
    rintro bs best ⟨q, hq, hbsq⟩
    by_cases hp : bs < sc p
    · simp only [firstArgmax, if_pos hp]
      by_cases hr : ∃ x ∈ rest, sc p < sc x
      · obtain ⟨r1, m, r2, heq, hlt, hall1, hall2, hres⟩ := ih (sc p) (some p) hr
        refine ⟨p :: r1, m, r2, by rw [heq, List.cons_append], lt_trans hp hlt, ?_, hall2, hres⟩
        intro x hx
        rcases List.mem_cons.mp hx with rfl | hx2
        · exact hlt
        · exact hall1 x hx2
      · push_neg at hr
        refine ⟨[], p, rest, rfl, hp, (by intro x hx; cases hx), hr,
          firstArgmax_const rest (sc p) (some p) hr⟩
    · simp only [firstArgmax, if_neg hp]
      have hqrest : ∃ x ∈ rest, bs < sc x := by
        rcases List.mem_cons.mp hq with rfl | hq2
        · exact absurd hbsq hp
        · exact ⟨q, hq2, hbsq⟩
      obtain ⟨r1, m, r2, heq, hlt, hall1, hall2, hres⟩ := ih bs best hqrest
      refine ⟨p :: r1, m, r2, by rw [heq, List.cons_append], hlt, ?_, hall2, hres⟩
      intro x hx
      rcases List.mem_cons.mp hx with rfl | hx2
      · exact lt_of_le_of_lt (not_lt.mp hp) hlt
      · exact hall1 x hx2

namespace AlphaBetaAI

theorem bestLoop_eq_firstArgmax (d : Nat) :
    ∀ (l : List (Nat × Nat)) (b : Board) (bs : Score) (best : Option (Nat × Nat)),
      (∀ p ∈ l, b.grid p.1 p.2 = false) →
      (bestLoop d l bs best b).1 =
        firstArgmax (fun p => (alpha_beta_search d ⊥ ⊤ false (b.applyMove p.1 p.2)).1)
          l bs best := by
  intro l
  induction l with
  | nil => intro b bs best _; rfl
  | cons p rest ih =>
    intro b bs best hcells
    have hb : (alpha_beta_search d ⊥ ⊤ false (b.applyMove p.1 p.2)).2 = b.applyMove p.1 p.2 :=
      alpha_beta_search_board _ _ _ _ _
    have hundo : ((alpha_beta_search d ⊥ ⊤ false (b.applyMove p.1 p.2)).2).undoMove p.1 p.2 = b := by
      rw [hb]; exact undo_applyMove (hcells p (List.mem_cons_self _ _))
    simp only [bestLoop, firstArgmax, hundo]
    split
    · exact ih _ _ _ (fun q hq => hcells q (List.mem_cons_of_mem _ hq))
    · exact ih _ _ _ (fun q hq => hcells q (List.mem_cons_of_mem _ hq))

end AlphaBetaAI

/-! ## Row-major ordering of `get_safe_positions` -/

/-- Strict row-major order on cells: earlier row, or same row and earlier
column. -/
def rmLt (p q : Nat × Nat) : Prop :=
  p.1 < q.1 ∨ (p.1 = q.1 ∧ p.2 < q.2)

theorem pairList_pairwise (n : Nat) : (pairList n).Pairwise rmLt := by
  have haux : ∀ l : List Nat, l.Pairwise (· < ·) →
      (l.flatMap (fun i => (List.range n).map (fun j => (i, j)))).Pairwise rmLt := by
    intro l
    induction l with
    | nil => intro _; exact List.Pairwise.nil
    | cons a t ih =>
      intro hp
      rw [List.flatMap_cons, List.pairwise_append]
      refine ⟨?_, ih (List.Pairwise.sublist (List.sublist_cons_self a t) hp), ?_⟩
      · rw [List.pairwise_map]
        have : (List.range n).Pairwise (· < ·) := List.pairwise_lt_range n
        exact this.imp (fun h => Or.inr ⟨rfl, h⟩)
      · intro x hx y hy
        obtain ⟨j, _, hj⟩ := List.mem_map.mp hx
        obtain ⟨i, hi, hmem⟩ := List.mem_flatMap.mp hy
        obtain ⟨k, _, hk⟩ := List.mem_map.mp hmem
        have hai : a < i := (List.pairwise_cons.mp hp).1 i hi
        rw [← hj, ← hk]
        exact Or.inl hai
  exact haux (List.range n) (List.pairwise_lt_range n)

theorem get_safe_positions_pairwise (b : Board) :
    b.get_safe_positions.Pairwise rmLt :=
  List.Pairwise.sublist (List.filter_sublist (pairList b.size)) (pairList_pairwise b.size)

theorem rmLt_ne {p q : Nat × Nat} (h : rmLt p q) : p ≠ q := by
  rintro rfl
  rcases h with h | ⟨_, h⟩
  · exact lt_irrefl _ h
  · exact lt_irrefl _ h

theorem pairList_nodup (n : Nat) : (pairList n).Nodup :=
  (pairList_pairwise n).imp rmLt_ne

/-! ## Characterisation of `is_safe` -/

theorem is_safe_grid_false {b : Board} {row col : Nat}
    (h : b.is_safe row col = true) : b.grid row col = false := by
  cases hg : b.grid row col
  · rfl
  · rw [Board.is_safe, hg] at h
    simp at h

theorem is_safe_components (b : Board) (row col : Nat) :
    b.is_safe row col = true ↔
      b.grid row col = false ∧
      (List.range b.size).any (fun i => b.grid row i || b.grid i col) = false ∧
      (List.range b.size).any (fun i => (List.range b.size).any (fun j =>
        if (i : Int) + j = (row : Int) + col ∨ (i : Int) - j = (row : Int) - col
        then b.grid i j else false)) = false := by
  unfold Board.is_safe
  split_ifs with h1 h2 h3
  · simp [h1]
  · simp [h2, Bool.not_eq_true _ ▸ h1]
  · constructor
    · intro hf
      exact absurd hf (by decide)
    · rintro ⟨_, _, hfalse⟩
      rw [h3] at hfalse
      exact absurd hfalse (by decide)
  · simp only [Bool.not_eq_true] at h1 h2 h3
    exact iff_of_true rfl ⟨h1, h2, h3⟩

theorem is_safe_iff (b : Board) (row col : Nat) (hr : row < b.size) (hc : col < b.size) :
    b.is_safe row col = true ↔
      (b.grid row col = false ∧
        ∀ r' c', r' < b.size → c' < b.size → b.grid r' c' = true →
          r' ≠ row ∧ c' ≠ col ∧
            ((row : Int) - (r' : Int)).natAbs ≠ ((col : Int) - (c' : Int)).natAbs) := by
  rw [is_safe_components]
  constructor
  · rintro ⟨hg, hrc, hdg⟩
    rw [List.any_eq_false] at hrc hdg
    refine ⟨hg, ?_⟩
    intro r' c' hr' hc' hq
    refine ⟨?_, ?_, ?_⟩
    · rintro rfl
      exact hrc c' (List.mem_range.mpr hc') (by simp [hq])
    · rintro rfl
      exact hrc r' (List.mem_range.mpr hr') (by simp [hq])
    · intro habs
      have hdgin := hdg r' (List.mem_range.mpr hr')
      simp only [Bool.not_eq_true] at hdgin
      rw [List.any_eq_false] at hdgin
      have hdgj := hdgin c' (List.mem_range.mpr hc')
      rcases Int.natAbs_eq_natAbs_iff.mp habs with hcase | hcase
      · have hcond : (r' : Int) - c' = (row : Int) - col := by omega
        rw [if_pos (Or.inr hcond)] at hdgj
        exact hdgj hq
      · have hcond : (r' : Int) + c' = (row : Int) + col := by omega
        rw [if_pos (Or.inl hcond)] at hdgj
        exact hdgj hq
  · rintro ⟨hg, hq⟩
    refine ⟨hg, ?_, ?_⟩
    · rw [List.any_eq_false]
      intro i hi hor
      rcases Bool.or_eq_true _ _ |>.mp hor with h | h
      · exact (hq row i hr (List.mem_range.mp hi) h).1 rfl
      · exact (hq i col (List.mem_range.mp hi) hc h).2.1 rfl
    · rw [List.any_eq_false]
      intro i hi
      simp only [Bool.not_eq_true]
      rw [List.any_eq_false]
      intro j hj hif
      by_cases hcond : (i : Int) + j = (row : Int) + col ∨ (i : Int) - j = (row : Int) - col
      · rw [if_pos hcond] at hif
        have h3 := (hq i j (List.mem_range.mp hi) (List.mem_range.mp hj) hif).2.2
        rcases hcond with hcase | hcase
        · exact h3 (Int.natAbs_eq_natAbs_iff.mpr (Or.inr (by omega)))
        · exact h3 (Int.natAbs_eq_natAbs_iff.mpr (Or.inl (by omega)))
      · rw [if_neg hcond] at hif
        exact absurd hif (by decide)

/-! ## The `queens_left` / occupancy-count invariant -/

theorem length_filter_update (q : Nat × Nat) {f g : Nat × Nat → Bool} :
    ∀ {l : List (Nat × Nat)}, l.Nodup → q ∈ l → f q = false → g q = true →
      (∀ p ∈ l, p ≠ q → g p = f p) →
      (l.filter g).length = (l.filter f).length + 1 := by
  intro l
  induction l with
  | nil => intro _ hq; cases hq
  | cons a t ih =>
    intro hnd hq hfq hgq hcong
    rcases List.mem_cons.mp hq with rfl | hqt
    · have hft : t.filter g = t.filter f := by
        apply List.filter_congr
        intro p hp
        exact hcong p (List.mem_cons_of_mem _ hp)
          (fun h => (List.nodup_cons.mp hnd).1 (h ▸ hp))
      rw [List.filter_cons, List.filter_cons, hfq, hgq, hft]
      simp
    · have haq : a ≠ q := fun h => (List.nodup_cons.mp hnd).1 (h ▸ hqt)
      have hga : g a = f a := hcong a (List.mem_cons_self _ _) haq
      have iht := ih (List.nodup_cons.mp hnd).2 hqt hfq hgq
        (fun p hp hpq => hcong p (List.mem_cons_of_mem _ hp) hpq)
      rw [List.filter_cons, List.filter_cons, hga]
      cases hfa : f a <;> simp [hfa, iht]

theorem countQueens_set_true {b : Board} {i j : Nat} (hi : i < b.size) (hj : j < b.size)
    (hg : b.grid i j = false) :
    countQueens (b.setOnly i j true) = countQueens b + 1 := by
  unfold countQueens
  have hsz : (b.setOnly i j true).size = b.size := rfl
  rw [hsz]
  apply length_filter_update (i, j) (pairList_nodup b.size)
    (mem_pairList.mpr ⟨hi, hj⟩) hg
  · show setCell b.grid i j true i j = true
    simp [setCell]
  · intro p _ hpq
    show setCell b.grid i j true p.1 p.2 = b.grid p.1 p.2
    have hne : ¬(p.1 = i ∧ p.2 = j) := by
      rintro ⟨h1, h2⟩
      exact hpq (Prod.ext h1 h2)
    simp [setCell, hne]

theorem countQueens_set_false {b : Board} {i j : Nat} (hi : i < b.size) (hj : j < b.size)
    (hg : b.grid i j = true) :
    countQueens b = countQueens (b.setOnly i j false) + 1 := by
  unfold countQueens
  have hsz : (b.setOnly i j false).size = b.size := rfl
  rw [hsz]
  apply length_filter_update (i, j) (pairList_nodup b.size)
    (mem_pairList.mpr ⟨hi, hj⟩)
  · show setCell b.grid i j false i j = false
    simp [setCell]
  · exact hg
  · intro p _ hpq
    show b.grid p.1 p.2 = setCell b.grid i j false p.1 p.2
    have hne : ¬(p.1 = i ∧ p.2 = j) := by
      rintro ⟨h1, h2⟩
      exact hpq (Prod.ext h1 h2)
    simp [setCell, hne]

theorem countQueens_init (n : Nat) : countQueens (Board.init n) = 0 := by
  unfold countQueens Board.init
  simp

/-- States reachable from a fresh or reset board through the public board
operations (in-range arguments) and the alpha-beta engine's internal
apply/undo moves, which the engine only performs on cells taken from
`get_safe_positions` (apply) or just applied (undo). -/
inductive ReachAB : Board → Prop
  | init (n : Nat) : ReachAB (Board.init n)
  | reset (b : Board) (s : Option Nat) : ReachAB b → ReachAB (b.reset s)
  | place (b : Board) (r c : Nat) (hr : r < b.size) (hc : c < b.size) :
      ReachAB b → ReachAB (b.place_queen r c).2
  | apply (b : Board) (i j : Nat) (hi : i < b.size) (hj : j < b.size)
      (h : b.grid i j = false) : ReachAB b → ReachAB (b.applyMove i j)
  | undo (b : Board) (i j : Nat) (hi : i < b.size) (hj : j < b.size)
      (h : b.grid i j = true) : ReachAB b → ReachAB (b.undoMove i j)

/-- States reachable when, in addition to `ReachAB`, the minimax engine's
internal moves are allowed: `MinimaxAI.minimax` sets a safe empty cell with
`self.board.board[i, j] = 1` without touching `queens_left`. -/
inductive ReachFull : Board → Prop
  | init (n : Nat) : ReachFull (Board.init n)
  | reset (b : Board) (s : Option Nat) : ReachFull b → ReachFull (b.reset s)
  | place (b : Board) (r c : Nat) (hr : r < b.size) (hc : c < b.size) :
      ReachFull b → ReachFull (b.place_queen r c).2
  | apply (b : Board) (i j : Nat) (hi : i < b.size) (hj : j < b.size)
      (h : b.grid i j = false) : ReachFull b → ReachFull (b.applyMove i j)
  | undo (b : Board) (i j : Nat) (hi : i < b.size) (hj : j < b.size)
      (h : b.grid i j = true) : ReachFull b → ReachFull (b.undoMove i j)
  | mmapply (b : Board) (i j : Nat) (hi : i < b.size) (hj : j < b.size)
      (h : (!(b.grid i j) && b.is_safe i j) = true) :
      ReachFull b → ReachFull (b.setOnly i j true)
  | mmundo (b : Board) (i j : Nat) (hi : i < b.size) (hj : j < b.size)
      (h : b.grid i j = true) : ReachFull b → ReachFull (b.setOnly i j false)

theorem reachAB_invariant : ∀ b : Board, ReachAB b →
    b.queens_left = (b.size : Int) - (countQueens b : Int) := by
  intro b h
  induction h with
  | init n => rw [countQueens_init]; simp [Board.init]
  | reset b s _ _ =>
    rw [Board.reset, countQueens_init]
    simp [Board.init]
  | place b r c hr hc _ ih =>
    unfold Board.place_queen
    split_ifs with hsafe
    · have hg : b.grid r c = false := is_safe_grid_false hsafe
      have hcq : countQueens (b.setOnly r c true) = countQueens b + 1 :=
        countQueens_set_true hr hc hg
      have hsame : countQueens
          { b with grid := setCell b.grid r c true, queens_left := b.queens_left - 1 } =
          countQueens (b.setOnly r c true) := rfl
      show b.queens_left - 1 = _
      rw [hsame, hcq]
      push_cast
      omega
    · exact ih
  | apply b i j hi hj h _ ih =>
    have hcq : countQueens (b.setOnly i j true) = countQueens b + 1 :=
      countQueens_set_true hi hj h
    rw [show (b.applyMove i j).queens_left = b.queens_left - 1 from rfl,
      show (b.applyMove i j).size = b.size from rfl,
      show countQueens (b.applyMove i j) = countQueens (b.setOnly i j true) from rfl, hcq]
    push_cast
    omega
  | undo b i j hi hj h _ ih =>
    have hcq : countQueens b = countQueens (b.setOnly i j false) + 1 :=
      countQueens_set_false hi hj h
    rw [show (b.undoMove i j).queens_left = b.queens_left + 1 from rfl,
      show (b.undoMove i j).size = b.size from rfl,
      show countQueens (b.undoMove i j) = countQueens (b.setOnly i j false) from rfl]
    rw [hcq] at ih
    push_cast at ih
    omega

/-! ## The minimax engine on dead boards -/

namespace MinimaxAI

theorem mmLoop_skip {rec : Board → Score × Board} {maxi : Bool} :
    ∀ (l : List (Nat × Nat)) (acc : Score) (b : Board),
      (∀ p ∈ l, (!(b.grid p.1 p.2) && b.is_safe p.1 p.2) = false) →
      mmLoop rec maxi l acc b = (acc, b) := by
  intro l
  induction l with
  | nil => intro acc b _; rfl
  | cons p rest ih =>
    intro acc b hall
    have hp : ¬((!(b.grid p.1 p.2) && b.is_safe p.1 p.2) = true) := by
      rw [hall p (List.mem_cons_self _ _)]
      exact (by decide)
    simp only [mmLoop, if_neg hp]
    exact ih acc b (fun q hq => hall q (List.mem_cons_of_mem _ hq))

theorem minimax_dead (d : Nat) (maxi : Bool) (b : Board)
    (hsafe : b.get_safe_positions = []) (hover : countQueens b ≠ b.size) :
    (minimax (d + 1) maxi b).1 = if maxi then (⊥ : Score) else ⊤ := by
  have hall : ∀ p ∈ pairList b.size, (!(b.grid p.1 p.2) && b.is_safe p.1 p.2) = false := by
    intro p hp
    have h := List.filter_eq_nil_iff.mp hsafe p hp
    cases hpred : (!(b.grid p.1 p.2) && b.is_safe p.1 p.2)
    · rfl
    · exact absurd hpred h
  simp only [minimax, if_neg hover]
  rw [mmLoop_skip (pairList b.size) _ b hall]

end MinimaxAI

/-! ## Checked (bounds-verified) variants of the board operations -/

/-- Checked grid read: `None` signals an out-of-bounds access. -/
def gridGet (b : Board) (i j : Nat) : Option Bool :=
  if i < b.size ∧ j < b.size then some (b.grid i j) else none

/-- Early-exit disjunction over a list of checked tests, mirroring a
`for` loop that returns `True` as soon as a test fires. -/
def anyOpt (f : Nat → Option Bool) : List Nat → Option Bool
  | [] => some false
  | x :: xs => do
    let v ← f x
    if v then some true else anyOpt f xs

/-- `is_safe` with every grid access checked. -/
def is_safeChecked (b : Board) (row col : Nat) : Option Bool := do
  let occ ← gridGet b row col
  if occ then some false
  else do
    let rc ← anyOpt (fun i => do
      let a ← gridGet b row i
      if a then some true else gridGet b i col) (List.range b.size)
    if rc then some false
    else do
      let dg ← anyOpt (fun i => anyOpt (fun j =>
        if (i : Int) + j = (row : Int) + col ∨ (i : Int) - j = (row : Int) - col
        then gridGet b i j else some false) (List.range b.size)) (List.range b.size)
      if dg then some false else some true

/-- Checked grid write. -/
def setCellChecked (b : Board) (row col : Nat) (v : Bool) : Option Board :=
  if row < b.size ∧ col < b.size then some (b.setOnly row col v) else none

/-- `place_queen` with every grid access checked. -/
def place_queenChecked (b : Board) (row col : Nat) : Option (Bool × Board) := do
  let s ← is_safeChecked b row col
  if s then do
    let b2 ← setCellChecked b row col true
    some (true, { b2 with queens_left := b2.queens_left - 1 })
  else some (false, b)

/-- Cell scan of `get_safe_positions` with every grid access checked. -/
def gspChecked (b : Board) : List (Nat × Nat) → Option (List (Nat × Nat))
  | [] => some []
  | p :: rest => do
    let c ← gridGet b p.1 p.2
    if c then gspChecked b rest
    else do
      let s ← is_safeChecked b p.1 p.2
      let tail ← gspChecked b rest
      if s then some (p :: tail) else some tail

/-- `get_safe_positions` with every grid access checked. -/
def get_safe_positionsChecked (b : Board) : Option (List (Nat × Nat)) :=
  gspChecked b (pairList b.size)

/-- `evaluate` (constructive heuristic) with every grid access checked. -/
def evaluateChecked (b : Board) : Option Int := do
  let queens_placed : Int := (b.size : Int) - b.queens_left
  if queens_placed = (b.size : Int) then some 1000
  else do
    let sp ← get_safe_positionsChecked b
    if (sp.length : Int) = 0 ∧ queens_placed < (b.size : Int) then some (-1000)
    else some (queens_placed * 10 + (sp.length : Int))

theorem anyOpt_eq {f : Nat → Option Bool} {g : Nat → Bool} :
    ∀ l : List Nat, (∀ x ∈ l, f x = some (g x)) → anyOpt f l = some (l.any g) := by
  intro l
  induction l with
  | nil => intro _; rfl
  | cons x xs ih =>
    intro hall
    have hfx : f x = some (g x) := hall x (List.mem_cons_self _ _)
    simp only [anyOpt, hfx, Option.some_bind, List.any_cons]
    cases hgx : g x
    · simp only [Bool.false_or, if_neg (by decide : ¬(false = true))]
      exact ih (fun y hy => hall y (List.mem_cons_of_mem _ hy))
    · simp

theorem gridGet_eq {b : Board} {i j : Nat} (hi : i < b.size) (hj : j < b.size) :
    gridGet b i j = some (b.grid i j) := if_pos ⟨hi, hj⟩

theorem is_safeChecked_eq (b : Board) (row col : Nat)
    (hr : row < b.size) (hc : col < b.size) :
    is_safeChecked b row col = some (b.is_safe row col) := by
  have h1 : anyOpt (fun i => do
      let a ← gridGet b row i
      if a then some true else gridGet b i col) (List.range b.size) =
      some ((List.range b.size).any (fun i => b.grid row i || b.grid i col)) := by
    apply anyOpt_eq
    intro i hi
    have hilt : i < b.size := List.mem_range.mp hi
    rw [gridGet_eq hr hilt]
    cases hgi : b.grid row i
    · simp [gridGet_eq hilt hc]
    · simp
  have h2 : anyOpt (fun i => anyOpt (fun j =>
      if (i : Int) + j = (row : Int) + col ∨ (i : Int) - j = (row : Int) - col
      then gridGet b i j else some false) (List.range b.size)) (List.range b.size) =
      some ((List.range b.size).any (fun i => (List.range b.size).any (fun j =>
        if (i : Int) + j = (row : Int) + col ∨ (i : Int) - j = (row : Int) - col
        then b.grid i j else false))) := by
    apply anyOpt_eq
    intro i hi
    apply anyOpt_eq
    intro j hj
    split
    · exact gridGet_eq (List.mem_range.mp hi) (List.mem_range.mp hj)
    · rfl
  unfold is_safeChecked Board.is_safe
  rw [gridGet_eq hr hc]
  cases hocc : b.grid row col
  · simp only [Option.some_bind, if_neg (by decide : ¬(false = true)), h1]
    cases hrc : (List.range b.size).any (fun i => b.grid row i || b.grid i col)
    · simp only [Option.some_bind, if_neg (by decide : ¬(false = true)), h2]
      cases hdg : (List.range b.size).any (fun i => (List.range b.size).any (fun j =>
        if (i : Int) + j = (row : Int) + col ∨ (i : Int) - j = (row : Int) - col
        then b.grid i j else false))
      · simp
      · simp
    · simp
  · simp

theorem gspChecked_eq (b : Board) :
    ∀ l : List (Nat × Nat), (∀ p ∈ l, p.1 < b.size ∧ p.2 < b.size) →
      gspChecked b l = some (l.filter (fun p => !(b.grid p.1 p.2) && b.is_safe p.1 p.2)) := by
  intro l
  induction l with
  | nil => intro _; rfl
  | cons p rest ih =>
    intro hall
    obtain ⟨hp1, hp2⟩ := hall p (List.mem_cons_self _ _)
    have htail := ih (fun q hq => hall q (List.mem_cons_of_mem _ hq))
    simp only [gspChecked, gridGet_eq hp1 hp2, Option.some_bind]
    cases hg : b.grid p.1 p.2
    · simp only [if_neg (by decide : ¬(false = true)), is_safeChecked_eq b p.1 p.2 hp1 hp2,
        Option.some_bind, htail, List.filter_cons]
      cases hs : b.is_safe p.1 p.2
      · simp [hg, hs]
      · simp [hg, hs]
    · simp [htail, hg]

theorem get_safe_positionsChecked_eq (b : Board) :
    get_safe_positionsChecked b = some b.get_safe_positions := by
  unfold get_safe_positionsChecked Board.get_safe_positions
  exact gspChecked_eq b (pairList b.size) (fun p hp => mem_pairList.mp hp)

theorem evaluateChecked_eq (b : Board) : evaluateChecked b = some b.evaluate := by
  unfold evaluateChecked Board.evaluate
  simp only [get_safe_positionsChecked_eq b, Option.bind_eq_bind', Option.some_bind]
  split
  · rfl
  · split
    · rfl
    · rfl

theorem place_queenChecked_eq (b : Board) (row col : Nat)
    (hr : row < b.size) (hc : col < b.size) :
    place_queenChecked b row col = some (b.place_queen row col) := by
  unfold place_queenChecked Board.place_queen
  rw [is_safeChecked_eq b row col hr hc]
  cases hs : b.is_safe row col
  · rfl
  · rw [show setCellChecked b row col true = some (b.setOnly row col true) from
      if_pos (And.intro hr hc)]
    rfl

/-! ## Concrete boards used as witnesses and counterexamples -/

/-- The 2-by-2 board with a queen at `(0, 0)` and one queen left to place:
no safe cell remains and the game is not over. -/
def deadBoard : Board :=
  { size := 2, grid := fun i j => i == 0 && j == 0, queens_left := 1 }

/-- The 4-by-4 board with a queen at `(0, 0)` and three queens left to
place: six safe cells remain. -/
def cornerBoard : Board :=
  { size := 4, grid := fun i j => i == 0 && j == 0, queens_left := 3 }

/-! ## The claims -/

/-- C1: for every board state and every depth, the alpha-beta search
called with the full window (`alpha = -inf`, `beta = +inf`) returns the
same score as the unpruned minimax search at the same depth, with the same
maximizing flag, over the same board and evaluation function; pruning can
change only which nodes are visited, never the returned value. -/
theorem pruning_preserves_value (d : Nat) (maxi : Bool) (b : Board) :
    (AlphaBetaAI.alpha_beta_search d ⊥ ⊤ maxi b).1 = minimax_spec d maxi b :=
  AlphaBetaAI.ab_full_window_eq d maxi b

/-- C2: after any call to the recursive search (`alpha_beta_search` of the
alpha-beta engine or `minimax` of the minimax engine), for any depth,
alpha/beta window and maximizing flag, the board — occupancy grid,
`queens_left` and size — is exactly what it was before the call: every
move applied inside the search is undone, including on the early-exit
pruning path. -/
theorem search_restores_board (d : Nat) (alpha beta : Score) (maxi : Bool) (b : Board) :
    (AlphaBetaAI.alpha_beta_search d alpha beta maxi b).2 = b ∧
    (MinimaxAI.minimax d maxi b).2 = b :=
  ⟨AlphaBetaAI.alpha_beta_search_board d alpha beta maxi b,
   MinimaxAI.minimax_board d maxi b⟩

/-- C7: for every board and every in-range cell, `is_safe` holds exactly
when the cell is empty and no queen on the board shares its row, its
column, or a diagonal (equal absolute row and column differences). -/
theorem is_safe_characterisation (b : Board) (row col : Nat)
    (hr : row < b.size) (hc : col < b.size) :
    b.is_safe row col = true ↔
      (b.grid row col = false ∧
        ∀ r' c', r' < b.size → c' < b.size → b.grid r' c' = true →
          r' ≠ row ∧ c' ≠ col ∧
            ((row : Int) - (r' : Int)).natAbs ≠ ((col : Int) - (c' : Int)).natAbs) :=
  is_safe_iff b row col hr hc

/-- Witness for C7: on the 4-by-4 board with a queen at the corner, the
characterisation is checked at the concrete safe cell `(2, 1)`. -/
theorem is_safe_characterisation_witness :
    (2 < cornerBoard.size ∧ 1 < cornerBoard.size) ∧
    (cornerBoard.is_safe 2 1 = true ↔
      (cornerBoard.grid 2 1 = false ∧
        ∀ r' c', r' < cornerBoard.size → c' < cornerBoard.size →
          cornerBoard.grid r' c' = true →
          r' ≠ 2 ∧ c' ≠ 1 ∧
            ((2 : Int) - (r' : Int)).natAbs ≠ ((1 : Int) - (c' : Int)).natAbs)) :=
  ⟨⟨by decide, by decide⟩,
   is_safe_characterisation cornerBoard 2 1 (by decide) (by decide)⟩

/-- C8: `place_queen` returns exactly the `is_safe` verdict; on success it
sets the requested cell, touches no other cell, keeps the size and
decrements `queens_left` by exactly one; on failure it returns the board
unchanged. -/
theorem place_queen_contract (b : Board) (row col : Nat) :
    ((b.place_queen row col).1 = b.is_safe row col) ∧
    (b.is_safe row col = true →
      (b.place_queen row col).2.grid row col = true ∧
      (b.place_queen row col).2.queens_left = b.queens_left - 1 ∧
      (b.place_queen row col).2.size = b.size ∧
      (∀ x y, ¬(x = row ∧ y = col) → (b.place_queen row col).2.grid x y = b.grid x y)) ∧
    (b.is_safe row col = false →
      (b.place_queen row col).1 = false ∧ (b.place_queen row col).2 = b) := by
  unfold Board.place_queen
  cases hs : b.is_safe row col
  · refine ⟨rfl, ?_, ?_⟩
    · intro h; exact absurd h (by decide)
    · intro _; exact ⟨rfl, rfl⟩
  · refine ⟨rfl, ?_, ?_⟩
    · intro _
      refine ⟨?_, rfl, rfl, ?_⟩
      · show setCell b.grid row col true row col = true
        simp [setCell]
      · intro x y hxy
        show setCell b.grid row col true x y = b.grid x y
        simp [setCell, hxy]
    · intro h; exact absurd h (by decide)

/-- C9: the constructive-heuristic `evaluate` returns 1000 when
`queens_left` is zero, -1000 when queens remain but no safe position
exists, and otherwise ten times the number of queens placed plus the
number of currently safe positions. -/
theorem evaluate_constructive_contract (b : Board) :
    (b.queens_left = 0 → b.evaluate = 1000) ∧
    (0 < b.queens_left → b.get_safe_positions.length = 0 → b.evaluate = -1000) ∧
    (b.queens_left ≠ 0 → ¬(0 < b.queens_left ∧ b.get_safe_positions.length = 0) →
      b.evaluate = 10 * ((b.size : Int) - b.queens_left) +
        (b.get_safe_positions.length : Int)) := by
  refine ⟨?_, ?_, ?_⟩
  · intro h0
    unfold Board.evaluate
    dsimp only
    have h1 : (b.size : Int) - b.queens_left = (b.size : Int) := by omega
    rw [if_pos h1]
  · intro hq hsafe
    unfold Board.evaluate
    dsimp only
    have h1 : ¬((b.size : Int) - b.queens_left = (b.size : Int)) := by omega
    have h2 : (b.get_safe_positions.length : Int) = 0 ∧
        (b.size : Int) - b.queens_left < (b.size : Int) := by
      refine ⟨?_, by omega⟩
      exact_mod_cast hsafe
    rw [if_neg h1, if_pos h2]
  · intro hq hrest
    unfold Board.evaluate
    dsimp only
    have h1 : ¬((b.size : Int) - b.queens_left = (b.size : Int)) := by omega
    have h2 : ¬((b.get_safe_positions.length : Int) = 0 ∧
        (b.size : Int) - b.queens_left < (b.size : Int)) := by
      rintro ⟨hlen, _⟩
      apply hrest
      refine ⟨by omega, ?_⟩
      exact_mod_cast hlen
    rw [if_neg h1, if_neg h2]
    ring

/-- C10: with checked (bounds-verified) grid indexing, `is_safe`,
`place_queen`, `get_safe_positions` and `evaluate` never reach the
out-of-bounds branch on in-range arguments — each checked variant returns
`some` of the unchecked result — and every position returned by
`get_safe_positions` lies inside the board. -/
theorem checked_accesses_in_bounds (b : Board) (row col : Nat)
    (hr : row < b.size) (hc : col < b.size) :
    is_safeChecked b row col = some (b.is_safe row col) ∧
    place_queenChecked b row col = some (b.place_queen row col) ∧
    get_safe_positionsChecked b = some b.get_safe_positions ∧
    evaluateChecked b = some b.evaluate ∧
    (∀ p ∈ b.get_safe_positions, p.1 < b.size ∧ p.2 < b.size) :=
  ⟨is_safeChecked_eq b row col hr hc, place_queenChecked_eq b row col hr hc,
   get_safe_positionsChecked_eq b, evaluateChecked_eq b,
   fun _ hp => ⟨(mem_get_safe_positions.mp hp).1, (mem_get_safe_positions.mp hp).2.1⟩⟩

/-- Witness for C10: the checked variants at the concrete in-range cell
`(1, 2)` of the corner board. -/
theorem checked_accesses_in_bounds_witness :
    (1 < cornerBoard.size ∧ 2 < cornerBoard.size) ∧
    (is_safeChecked cornerBoard 1 2 = some (cornerBoard.is_safe 1 2) ∧
     place_queenChecked cornerBoard 1 2 = some (cornerBoard.place_queen 1 2) ∧
     get_safe_positionsChecked cornerBoard = some cornerBoard.get_safe_positions ∧
     evaluateChecked cornerBoard = some cornerBoard.evaluate ∧
     (∀ p ∈ cornerBoard.get_safe_positions, p.1 < cornerBoard.size ∧ p.2 < cornerBoard.size)) :=
  ⟨⟨by decide, by decide⟩,
   checked_accesses_in_bounds cornerBoard 1 2 (by decide) (by decide)⟩

/-- C3, counterexample: on the 2-by-2 board with a queen at `(0, 0)` —
zero safe positions, game not over — the minimax engine's recursive
search at depth 1 returns the `-inf` sentinel (maximizing) and the `+inf`
sentinel (minimizing) instead of the board's evaluation. -/
theorem minimax_dead_end_cex :
    deadBoard.get_safe_positions = [] ∧
    deadBoard.is_game_over = false ∧
    countQueens deadBoard ≠ deadBoard.size ∧
    (MinimaxAI.minimax 1 true deadBoard).1 = ⊥ ∧
    (MinimaxAI.minimax 1 true deadBoard).1 ≠ Score.int deadBoard.evaluateConflict ∧
    (MinimaxAI.minimax 1 false deadBoard).1 = ⊤ := by
  refine ⟨rfl, rfl, by decide, rfl, by decide, rfl⟩

/-- C3, amended: on a board with zero safe positions whose game is not
over, at any depth `d > 0`, the alpha-beta engine's `alpha_beta_search`
returns `board.evaluate()`; the minimax engine's `minimax` instead
returns the `-inf` sentinel when maximizing and the `+inf` sentinel when
minimizing. -/
theorem dead_end_returns_evaluate_amended (d : Nat) (alpha beta : Score) (maxi : Bool)
    (b : Board) (hd : 0 < d) (hsafe : b.get_safe_positions = [])
    (hover : b.is_game_over = false) :
    (AlphaBetaAI.alpha_beta_search d alpha beta maxi b).1 = Score.int b.evaluate ∧
    (countQueens b ≠ b.size →
      (MinimaxAI.minimax d maxi b).1 = if maxi then (⊥ : Score) else ⊤) := by
  obtain ⟨e, rfl⟩ : ∃ e, d = e + 1 := ⟨d - 1, by omega⟩
  constructor
  · simp [AlphaBetaAI.alpha_beta_search, hover, hsafe]
  · intro hcq
    exact MinimaxAI.minimax_dead e maxi b hsafe hcq

/-- Witness for the amended C3: both conclusions checked on the concrete
dead 2-by-2 board at depth 1. -/
theorem dead_end_returns_evaluate_amended_witness :
    (0 < 1 ∧ deadBoard.get_safe_positions = [] ∧ deadBoard.is_game_over = false) ∧
    ((AlphaBetaAI.alpha_beta_search 1 ⊥ ⊤ true deadBoard).1 = Score.int deadBoard.evaluate ∧
      (countQueens deadBoard ≠ deadBoard.size →
        (MinimaxAI.minimax 1 true deadBoard).1 = if true then (⊥ : Score) else ⊤)) :=
  ⟨⟨by decide, rfl, rfl⟩,
   dead_end_returns_evaluate_amended 1 ⊥ ⊤ true deadBoard (by decide) rfl rfl⟩

/-- C4, counterexample: the minimax engine's internal move — reachable
from a fresh 2-by-2 board by one engine step — sets a grid cell without
decrementing `queens_left`, so the reached state violates
`queens_left = size - (occupied cells)`. -/
theorem minimax_move_desyncs_counter_cex :
    ReachFull ((Board.init 2).setOnly 0 0 true) ∧
    ((Board.init 2).setOnly 0 0 true).queens_left ≠
      ((((Board.init 2).setOnly 0 0 true).size : Int)) -
        (countQueens ((Board.init 2).setOnly 0 0 true) : Int) := by
  constructor
  · exact ReachFull.mmapply (Board.init 2) 0 0 (by decide) (by decide) (by decide)
      (ReachFull.init 2)
  · decide

/-- C4, amended: in every state reachable from a freshly constructed or
reset board through the public operations (in-range `place_queen`, reset)
and the alpha-beta engine's internal apply/undo moves, `queens_left`
equals the size minus the number of occupied cells; the minimax engine's
internal moves are excluded, as they change the grid without touching the
counter. -/
theorem queens_left_tracks_occupancy_amended (b : Board) (h : ReachAB b) :
    b.queens_left = (b.size : Int) - (countQueens b : Int) :=
  reachAB_invariant b h

/-- Witness for the amended C4: the invariant at the concrete state
reached by one alpha-beta engine apply-move from a fresh 2-by-2 board. -/
theorem queens_left_tracks_occupancy_amended_witness :
    ((Board.init 2).applyMove 0 1).queens_left =
      ((((Board.init 2).applyMove 0 1).size : Int)) -
        (countQueens ((Board.init 2).applyMove 0 1) : Int) :=
  queens_left_tracks_occupancy_amended _
    (ReachAB.apply (Board.init 2) 0 1 (by decide) (by decide) rfl (ReachAB.init 2))

/-- C5, counterexample: on the 4-by-4 board with a queen at `(0, 0)`, six
safe positions exist — `(2, 1)` among them — yet the minimax engine's
`get_best_move` returns `None`, because every candidate's depth-3 score
is the `-inf` sentinel and never strictly exceeds the initial best score
`-inf`. -/
theorem minimax_get_best_move_none_cex :
    (MinimaxAI.get_best_move cornerBoard).1 = none ∧
    cornerBoard.get_safe_positions ≠ [] ∧
    (2, 1) ∈ cornerBoard.get_safe_positions := by
  refine ⟨by decide, by decide, by decide⟩

/-- C5, amended: the alpha-beta engine's `get_best_move` returns `None`
exactly when the board has zero safe positions, leaves the board
unchanged, and any returned move is one of the board's safe positions;
the minimax engine's `get_best_move` still returns `None` immediately,
without mutating the board, when no safe position exists (the converse
fails for it). -/
theorem get_best_move_none_iff_amended (d : Nat) (b : Board) :
    ((AlphaBetaAI.get_best_move d b).1 = none ↔ b.get_safe_positions = []) ∧
    (AlphaBetaAI.get_best_move d b).2 = b ∧
    (∀ m, (AlphaBetaAI.get_best_move d b).1 = some m → m ∈ b.get_safe_positions) ∧
    (b.get_safe_positions = [] → MinimaxAI.get_best_move b = (none, b)) := by
  rcases hl : b.get_safe_positions with _ | ⟨p, rest⟩
  · have h1 : AlphaBetaAI.get_best_move d b = (none, b) := by
      unfold AlphaBetaAI.get_best_move
      rw [hl]
      rfl
    refine ⟨?_, ?_, ?_, ?_⟩
    · simp [h1]
    · rw [h1]
    · intro m hm
      rw [h1] at hm
      cases hm
    · intro _
      unfold MinimaxAI.get_best_move
      rw [show (pairList b.size).filter
          (fun q => !(b.grid q.1 q.2) && b.is_safe q.1 q.2) = b.get_safe_positions from rfl,
        hl]
      rfl
  · have hcells : ∀ q ∈ b.get_safe_positions, b.grid q.1 q.2 = false :=
      fun q hq => grid_false_of_mem_gsp hq
    have hloop : (AlphaBetaAI.get_best_move d b) = AlphaBetaAI.bestLoop d (p :: rest) ⊥ none b := by
      unfold AlphaBetaAI.get_best_move
      rw [hl]
      rfl
    have hcells2 : ∀ q ∈ (p :: rest : List (Nat × Nat)), b.grid q.1 q.2 = false := by
      rw [← hl]; exact hcells
    have hfa : (AlphaBetaAI.bestLoop d (p :: rest) ⊥ none b).1 =
        firstArgmax (fun q => (AlphaBetaAI.alpha_beta_search d ⊥ ⊤ false (b.applyMove q.1 q.2)).1)
          (p :: rest) ⊥ none :=
      AlphaBetaAI.bestLoop_eq_firstArgmax d (p :: rest) b ⊥ none hcells2
    have hex : ∃ q ∈ (p :: rest : List (Nat × Nat)),
        (⊥ : Score) < (AlphaBetaAI.alpha_beta_search d ⊥ ⊤ false (b.applyMove q.1 q.2)).1 :=
      ⟨p, List.mem_cons_self _ _,
        Ne.bot_lt (AlphaBetaAI.alpha_beta_search_finite d ⊥ ⊤ false (b.applyMove p.1 p.2)).1⟩
    obtain ⟨l1, m, l2, _, _, _, _, hres⟩ := firstArgmax_split (p :: rest) ⊥ none hex
    have hsome : (AlphaBetaAI.get_best_move d b).1 = some m := by
      rw [hloop, hfa, hres]
    refine ⟨?_, ?_, ?_, ?_⟩
    · rw [hsome]
      constructor
      · intro h; cases h
      · intro h; cases h
    · rw [hloop]
      exact AlphaBetaAI.bestLoop_board d (p :: rest) ⊥ none b hcells2
    · intro m2 hm2
      rw [hsome] at hm2
      cases hm2
      have : m ∈ (p :: rest : List (Nat × Nat)) := by
        obtain ⟨ll1, mm, ll2, heq2, _, _, _, hres2⟩ := firstArgmax_split (p :: rest) ⊥ none hex
        rw [hres2] at hres
        cases hres
        rw [heq2]
        exact List.mem_append_right _ (List.mem_cons_self _ _)
      exact this
    · intro hcontra
      cases hcontra

/-- C6: `get_safe_positions` returns exactly the in-range empty cells
passing `is_safe`, in strictly ascending row-major order; and on a board
with at least one safe position, the alpha-beta `get_best_move` returns
the row-major-earliest candidate among those achieving the maximal
full-window search score — every earlier candidate scores strictly less,
every later one scores no more. -/
theorem safe_positions_order_and_first_tiebreak (d : Nat) (b : Board) :
    b.get_safe_positions.Pairwise rmLt ∧
    (∀ p : Nat × Nat, p ∈ b.get_safe_positions ↔
      p.1 < b.size ∧ p.2 < b.size ∧ b.grid p.1 p.2 = false ∧ b.is_safe p.1 p.2 = true) ∧
    (b.get_safe_positions ≠ [] →
      ∃ l1 m l2, b.get_safe_positions = l1 ++ m :: l2 ∧
        (AlphaBetaAI.get_best_move d b).1 = some m ∧
        (∀ x ∈ l1, (AlphaBetaAI.alpha_beta_search d ⊥ ⊤ false (b.applyMove x.1 x.2)).1 <
          (AlphaBetaAI.alpha_beta_search d ⊥ ⊤ false (b.applyMove m.1 m.2)).1) ∧
        (∀ y ∈ l2, (AlphaBetaAI.alpha_beta_search d ⊥ ⊤ false (b.applyMove y.1 y.2)).1 ≤
          (AlphaBetaAI.alpha_beta_search d ⊥ ⊤ false (b.applyMove m.1 m.2)).1)) := by
  refine ⟨get_safe_positions_pairwise b, fun p => mem_get_safe_positions, ?_⟩
  intro hne
  rcases hl : b.get_safe_positions with _ | ⟨p, rest⟩
  · exact absurd hl hne
  · have hcells2 : ∀ q ∈ (p :: rest : List (Nat × Nat)), b.grid q.1 q.2 = false := by
      rw [← hl]
      exact fun q hq => grid_false_of_mem_gsp hq
    have hloop : (AlphaBetaAI.get_best_move d b) = AlphaBetaAI.bestLoop d (p :: rest) ⊥ none b := by
      unfold AlphaBetaAI.get_best_move
      rw [hl]
      rfl
    have hfa : (AlphaBetaAI.bestLoop d (p :: rest) ⊥ none b).1 =
        firstArgmax (fun q => (AlphaBetaAI.alpha_beta_search d ⊥ ⊤ false (b.applyMove q.1 q.2)).1)
          (p :: rest) ⊥ none :=
      AlphaBetaAI.bestLoop_eq_firstArgmax d (p :: rest) b ⊥ none hcells2
    have hex : ∃ q ∈ (p :: rest : List (Nat × Nat)),
        (⊥ : Score) < (AlphaBetaAI.alpha_beta_search d ⊥ ⊤ false (b.applyMove q.1 q.2)).1 :=
      ⟨p, List.mem_cons_self _ _,
        Ne.bot_lt (AlphaBetaAI.alpha_beta_search_finite d ⊥ ⊤ false (b.applyMove p.1 p.2)).1⟩
    obtain ⟨l1, m, l2, heq, _, hall1, hall2, hres⟩ := firstArgmax_split (p :: rest) ⊥ none hex
    exact ⟨l1, m, l2, heq, by rw [hloop, hfa, hres], hall1, hall2⟩
